import Mathlib

/-!
Verification of `github-org-contributions.py` against its specification.

The script walks GitHub's GraphQL API: it lists an organization's
repositories, walks each repository's commit history and pull-request
review history (the latter through a two-level cursor pagination), folds
the resulting commit/review events into per-author counters, and prints a
sorted report.

The shallow embedding below models the remote data source as explicit
lists (a repository is a list of pull requests, each carrying its review
list; an organization listing is a list of repository nodes).  A GraphQL
cursor is embedded as the count of items already consumed from the start
of its connection, so `after c` returns items from position `c` on; the
page size is the literal 100 of every `first:100` in the queries.  ISO
timestamp strings are embedded as their parsed numeric instants (`Int`),
since the script immediately converts them with `strptime(...).timestamp()`.
The unbounded `while True` loops are embedded with an explicit fuel
parameter; a run that exhausts its fuel yields `none`, and every theorem
about a complete run supplies enough fuel for the input at hand.
-/

/-! ## Review History Walker (`get_reviews`, lines 106-197)

A review node carries a nullable author login and a nullable submission
timestamp; a pull request carries a nullable author login and its full
review list.  These mirror the GraphQL nodes the query selects.
-/

/-- One review node: `author { login }` and `submittedAt`, both nullable. -/
structure Review where
  author : Option String
  submittedAt : Option Int
deriving DecidableEq

/-- One pull request with its complete underlying review list. -/
structure PullRequest where
  author : Option String
  reviews : List Review
deriving DecidableEq

/-- One emitted reviewer record: `{'author': ..., 'reviewDate': ...}`. -/
structure ReviewEvent where
  author : String
  reviewDate : Int
deriving DecidableEq

/-- Page size of every `first:100` in the script's queries. -/
def pageSize : Nat := 100

/-- A fetched review page: `reviews(first:100, after: I)` with its
`pageInfo { hasNextPage, endCursor }`. -/
structure ReviewPage where
  nodes : List Review
  hasNextPage : Bool
  endCursor : Nat
deriving DecidableEq

/-- An absent cursor argument (`''` in the script) means the start of the
connection. -/
def cursorOffset : Option Nat → Nat
  | none => 0
  | some c => c

/-- Server side of one review connection: items after the cursor, capped at
the page size, with the page info GitHub reports. -/
def fetchReviews (rs : List Review) (after : Option Nat) : ReviewPage :=
  let o := cursorOffset after
  let ns := (rs.drop o).take pageSize
  { nodes := ns
    hasNextPage := decide (o + ns.length < rs.length)
    endCursor := o + ns.length }

/-- One pull-request node of a fetched page: its author and its embedded
review page (the inner `after` applies to every PR of the page, as the
query interpolates one `review_history_args` into the whole request). -/
structure PRNode where
  author : Option String
  reviews : ReviewPage
deriving DecidableEq

/-- A fetched page of pull requests with the outer page info. -/
structure PRPage where
  nodes : List PRNode
  hasNextPage : Bool
  endCursor : Nat
deriving DecidableEq

/-- Server side of `pullRequests(first:100, after: O)` with each node's
embedded `reviews(first:100, after: I)`. -/
def fetchPRPage (repo : List PullRequest) (outer inner : Option Nat) : PRPage :=
  let o := cursorOffset outer
  let prs := (repo.drop o).take pageSize
  { nodes := prs.map fun pr => { author := pr.author, reviews := fetchReviews pr.reviews inner }
    hasNextPage := decide (o + prs.length < repo.length)
    endCursor := o + prs.length }

/-- Lines 155-159: a null PR author (deleted account) is replaced by the
empty string. -/
def prAuthorLogin : Option String → String
  | none => ""
  | some a => a

/-- Lines 161-183, the inner `for review in reviews['nodes']` loop: skip a
null review author, skip a self-review, skip a null `submittedAt`,
otherwise emit the reviewer record. -/
def processReviews (pa : String) : List Review → List ReviewEvent
  | [] => []
  | r :: rest =>
    match r.author with
    | none => processReviews pa rest
    | some ra =>
      if pa = ra then processReviews pa rest
      else
        match r.submittedAt with
        | none => processReviews pa rest
        | some t => ⟨ra, t⟩ :: processReviews pa rest

/-- Lines 154-187, the `for pr in prs` loop: process each PR's embedded
review page in order; at the first PR whose review page has a next page,
record that PR's end cursor and break out of the loop. -/
def processPRs : List PRNode → List ReviewEvent × Option Nat
  | [] => ([], none)
  | pr :: rest =>
    let evs := processReviews (prAuthorLogin pr.author) pr.reviews.nodes
    if pr.reviews.hasNextPage then (evs, some pr.reviews.endCursor)
    else
      let r := processPRs rest
      (evs ++ r.1, r.2)

/-- The inner `while True` (lines 116-190): fetch the outer page at cursor
`outer` with the inner cursor applied, scan it, and while some PR reports
more reviews re-fetch the same outer page with the advanced inner cursor.
Returns the accumulated reviewer records and the last fetched page. -/
def innerLoop (repo : List PullRequest) (outer : Option Nat) :
    Nat → Option Nat → List ReviewEvent → Option (List ReviewEvent × PRPage)
  | 0, _, _ => none
  | fuel + 1, inner, acc =>
    let page := fetchPRPage repo outer inner
    let r := processPRs page.nodes
    match r.2 with
    | none => some (acc ++ r.1, page)
    | some c => innerLoop repo outer fuel (some c) (acc ++ r.1)

/-- The outer `while True` (lines 115-195): drain the current outer page's
review backlog, then advance the outer cursor while the outer page info
reports more pull requests. -/
def outerLoop (repo : List PullRequest) :
    Nat → Option Nat → List ReviewEvent → Option (List ReviewEvent)
  | 0, _, _ => none
  | fuel + 1, outer, acc =>
    match innerLoop repo outer fuel none acc with
    | none => none
    | some (acc2, page) =>
      if page.hasNextPage then outerLoop repo fuel (some page.endCursor) acc2
      else some acc2

/-- `get_reviews` over the embedded repository: both cursor arguments start
absent and the reviewer list starts empty. -/
def get_reviews (fuel : Nat) (repo : List PullRequest) : Option (List ReviewEvent) :=
  outerLoop repo fuel none []

/-- A review the inner loop emits an event for: non-null author, not the
PR author, non-null submission timestamp. -/
def qualifies (pa : String) (r : Review) : Bool :=
  match r.author with
  | none => false
  | some ra => if pa = ra then false else r.submittedAt.isSome

/-! ## Aggregator (`main`, lines 299-324, and `AuthorCounts`, lines 24-29) -/

/-- The four per-author counters.  Python integers are unbounded, so the
fields are embedded as `Int`. -/
structure AuthorCounts where
  total_commits : Int
  commits_in_last_year : Int
  total_reviews : Int
  reviews_in_last_year : Int
deriving DecidableEq

/-- `AuthorCounts.__init__`: all four counters start at zero. -/
def AuthorCounts.start : AuthorCounts := ⟨0, 0, 0, 0⟩

/-- One event fed to the aggregation loops of `main`: a commit with its
`authoredDate` or a review with its `reviewDate`. -/
inductive Event where
  | commit (author : String) (date : Int)
  | review (author : String) (date : Int)
deriving DecidableEq

/-- The author key the event is filed under. -/
def Event.author : Event → String
  | .commit a _ => a
  | .review a _ => a

/-- Lines 313-315 and 322-324: increment the total counter of the event's
kind, and the in-window counter as well when the event's date is at or
after the boundary (`date >= one_year_ago_timestamp`). -/
def bump (boundary : Int) (e : Event) (c : AuthorCounts) : AuthorCounts :=
  match e with
  | .commit _ d =>
    { c with
      total_commits := c.total_commits + 1
      commits_in_last_year :=
        if boundary ≤ d then c.commits_in_last_year + 1 else c.commits_in_last_year }
  | .review _ d =>
    { c with
      total_reviews := c.total_reviews + 1
      reviews_in_last_year :=
        if boundary ≤ d then c.reviews_in_last_year + 1 else c.reviews_in_last_year }

/-- The per-repository author table: `authors` in `main`, a dictionary from
author key to counters, embedded extensionally. -/
def AuthorsMap : Type := String → Option AuthorCounts

/-- Lines 310-315 / 319-324: get-or-create the event author's record
(`AuthorCounts()` on first sight) and bump its counters. -/
def applyEvent (boundary : Int) (m : AuthorsMap) (e : Event) : AuthorsMap :=
  fun a =>
    if a = e.author then some (bump boundary e ((m e.author).getD AuthorCounts.start))
    else m a

/-- The whole aggregation of one repository's event list, starting from the
empty dictionary `authors = {}`. -/
def aggregate (boundary : Int) (es : List Event) : AuthorsMap :=
  es.foldl (applyEvent boundary) fun _ => none

/-! ## Repository Lister (`get_org_repos_from_name`, lines 199-244) -/

/-- One repository node of the organization listing: `name`,
`defaultBranchRef { name }` (null for an empty repository), `isArchived`. -/
structure RepoNode where
  name : String
  defaultBranchRef : Option String
  isArchived : Bool
deriving DecidableEq

/-- Python dictionary assignment `repos[name] = branch`: replace the value
in place when the key exists, append the pair otherwise. -/
def dictInsert (k v : String) : List (String × String) → List (String × String)
  | [] => [(k, v)]
  | p :: rest => if p.1 = k then (k, v) :: rest else p :: dictInsert k v rest

/-- Lines 230-239, one node of the listing: skip a branch-less repository,
skip an archived one, otherwise record name → default branch. -/
def addRepo (acc : List (String × String)) (r : RepoNode) : List (String × String) :=
  match r.defaultBranchRef with
  | none => acc
  | some branch => if r.isArchived then acc else dictInsert r.name branch acc

/-- The single-cursor pagination of the repository listing (the `while
True` of lines 206-243): fold each fetched page into the accumulator and
advance the cursor while the page info reports more repositories. -/
def orgLoop (listing : List RepoNode) : Nat → Nat → List (String × String) →
    Option (List (String × String))
  | 0, _, _ => none
  | fuel + 1, off, acc =>
    let page := (listing.drop off).take pageSize
    let acc2 := page.foldl addRepo acc
    if off + page.length < listing.length then orgLoop listing fuel (off + page.length) acc2
    else some acc2

/-- `get_org_repos_from_name` over the embedded listing. -/
def get_org_repos_from_name (fuel : Nat) (listing : List RepoNode) :
    Option (List (String × String)) :=
  orgLoop listing fuel 0 []

/-- The entry a listing node contributes to the result: `some (name,
branch)` exactly for a non-archived repository with a default branch. -/
def repoEntry (r : RepoNode) : Option (String × String) :=
  match r.defaultBranchRef with
  | none => none
  | some branch => if r.isArchived then none else some (r.name, branch)

/-! ## Reporter sort (`print_authors` line 247, `print_csv` line 274)

Both renderers compute
`sorted(authors.items(), key=lambda item: item[1].commits_in_last_year +
item[1].reviews_in_last_year, reverse=True)`.  Python's `sorted` is a
stable sort, and with `reverse=True` equal keys still keep their input
order; the unique stable descending order is embedded as an insertion sort
that moves an element past exactly the strictly greater keys. -/

/-- The sort key of one `authors.items()` entry. -/
def sortKey (it : String × AuthorCounts) : Int :=
  it.2.commits_in_last_year + it.2.reviews_in_last_year

/-- Stable descending insertion: the new element passes the entries with a
strictly greater key and stops in front of the first key less than or
equal to its own, so earlier input wins ties. -/
def insertDesc (x : String × AuthorCounts) :
    List (String × AuthorCounts) → List (String × AuthorCounts)
  | [] => [x]
  | y :: ys => if sortKey x < sortKey y then y :: insertDesc x ys else x :: y :: ys

/-- The stable descending sort of the author table's entries. -/
def sortAuthorsDesc (l : List (String × AuthorCounts)) : List (String × AuthorCounts) :=
  l.foldr insertDesc []

/-- The order `print_authors` (line 247) walks the author table in. -/
def print_authors_order (authors : List (String × AuthorCounts)) :
    List (String × AuthorCounts) :=
  sortAuthorsDesc authors

/-- The order `print_csv` (line 274) walks the author table in. -/
def print_csv_order (authors : List (String × AuthorCounts)) :
    List (String × AuthorCounts) :=
  sortAuthorsDesc authors

/-! ## Page-response error handling (lines 70-80, 148-152, 226-230)

Each page request yields a status code and a parsed JSON body.  The script
raises a checked `Exception` for some failure shapes; for the others it
crashes on the subscript itself — reading a missing key is Python's
`KeyError`, subscripting `None` is a `TypeError`.  All three abort the
run, but only the first is one of the script's own errors. -/

/-- How a page access can abort: a deliberate `raise Exception(...)`, or an
unhandled `KeyError`/`TypeError` from the subscript chain itself. -/
inductive PyError where
  | raised (msg : String)
  | keyError
  | typeError
deriving DecidableEq

/-- Whether the abort is one of the script's own raised errors (the
`RemoteQueryError`/`RepositoryNotFoundError` class of the specification)
rather than an unhandled interpreter error. -/
def PyError.isRaised : PyError → Bool
  | .raised _ => true
  | _ => false

/-- A commit node as the commit query selects it: `author { name, user {
login } }` and the parsed `authoredDate`. -/
structure CommitAuthor where
  name : String
  user : Option String
deriving DecidableEq

/-- One commit history node. -/
structure CommitNode where
  author : CommitAuthor
  authoredDate : Int
deriving DecidableEq

/-- Lines 84-92: prefer the linked account login; fall back to the raw
commit author name when GitHub matched no account. -/
def resolveCommitAuthor (a : CommitAuthor) : String :=
  match a.user with
  | none => a.name
  | some login => login

/-- One fetched commit history page. -/
structure CommitHistoryPage where
  nodes : List CommitNode
  hasNextPage : Bool
  endCursor : Nat
deriving DecidableEq

/-- `ref { target { ... history ... } }` of the commit query, present when
the ref resolved. -/
structure CommitRef where
  history : CommitHistoryPage
deriving DecidableEq

/-- `repository` of the commit query with its nullable `ref`. -/
structure CommitRepo where
  ref : Option CommitRef
deriving DecidableEq

/-- The `data` object of a commit page response. -/
structure CommitData where
  repository : Option CommitRepo
deriving DecidableEq

/-- A raw commit page response: HTTP status and body; `respData = none`
embeds a body with no `data` key. -/
structure CommitResponse where
  status : Nat
  respData : Option CommitData
deriving DecidableEq

/-- Lines 70-80: the commit walker's access to one page response.  Every
failure shape is met by a deliberate raise before the subscripts run. -/
def commitPageAccess (r : CommitResponse) : Except PyError CommitHistoryPage :=
  if r.status ≠ 200 then .error (.raised "GitHub GraphQL query failed")
  else
    match r.respData with
    | none => .error (.raised "GraphQL query returned unexpected data")
    | some d =>
      match d.repository with
      | none => .error (.raised "Repo does not exist")
      | some repo =>
        match repo.ref with
        | none => .error (.raised "Repo does not exist")
        | some ref => .ok ref.history

/-- The `data` object of a review page response, with its nullable
`repository`. -/
structure ReviewsData where
  repository : Option PRPage
deriving DecidableEq

/-- A raw review page response. -/
structure ReviewResponse where
  status : Nat
  respData : Option ReviewsData
deriving DecidableEq

/-- Lines 148-152: the review walker checks only the status; the subscript
chain `result['data']['repository']['pullRequests']` then crashes uncaught
on a missing `data` key or a null `repository`. -/
def reviewPageAccess (r : ReviewResponse) : Except PyError (List PRNode) :=
  if r.status ≠ 200 then .error (.raised "GitHub GraphQL query failed")
  else
    match r.respData with
    | none => .error .keyError
    | some d =>
      match d.repository with
      | none => .error .typeError
      | some page => .ok page.nodes

/-- The organization object of the listing response. -/
structure OrgObject where
  repositories : List RepoNode
deriving DecidableEq

/-- The `data` object of a listing page response, with its nullable
`organization`. -/
structure OrgData where
  organization : Option OrgObject
deriving DecidableEq

/-- A raw organization listing page response. -/
structure OrgResponse where
  status : Nat
  respData : Option OrgData
deriving DecidableEq

/-- Lines 226-230: the repository lister checks only the status; the chain
`result['data']['organization']['repositories']` then crashes uncaught on
a missing `data` key or a null `organization` (unknown organization). -/
def orgPageAccess (r : OrgResponse) : Except PyError (List RepoNode) :=
  if r.status ≠ 200 then .error (.raised "GitHub GraphQL query failed")
  else
    match r.respData with
    | none => .error .keyError
    | some d =>
      match d.organization with
      | none => .error .typeError
      | some org => .ok org.repositories

/-- The commit walker's page loop over a stream of prepared responses: the
first failing page access aborts the whole walk with that error and no
commit list is returned. -/
def commitsRun : List CommitResponse → List CommitNode → Option (Except PyError (List CommitNode))
  | [], _ => none
  | r :: rest, acc =>
    match commitPageAccess r with
    | .error e => some (.error e)
    | .ok page =>
      if page.hasNextPage then commitsRun rest (acc ++ page.nodes)
      else some (.ok (acc ++ page.nodes))

/-! ## Lemmas about the inner review scan -/

/-- The review scan distributes over list concatenation. -/
theorem processReviews_append (pa : String) (l1 l2 : List Review) :
    processReviews pa (l1 ++ l2) = processReviews pa l1 ++ processReviews pa l2 := by
  induction l1 with
  | nil => rfl
  | cons r rest ih =>
    obtain ⟨oa, os⟩ := r
    cases oa with
    | none => simpa [processReviews] using ih
    | some ra =>
      by_cases hpa : pa = ra
      · simpa [processReviews, hpa] using ih
      · cases os with
        | none => simpa [processReviews, hpa] using ih
        | some t => simpa [processReviews, hpa] using ih

/-- The review scan emits one event per qualifying review. -/
theorem processReviews_length (pa : String) (rs : List Review) :
    (processReviews pa rs).length = rs.countP (qualifies pa) := by
  induction rs with
  | nil => rfl
  | cons r rest ih =>
    obtain ⟨oa, os⟩ := r
    cases oa with
    | none => simpa [processReviews, qualifies, List.countP_cons] using ih
    | some ra =>
      by_cases hpa : pa = ra
      · simpa [processReviews, qualifies, List.countP_cons, hpa] using ih
      · cases os with
        | none => simpa [processReviews, qualifies, List.countP_cons, hpa] using ih
        | some t => simpa [processReviews, qualifies, List.countP_cons, hpa] using ih

/-- Every emitted event names a reviewer different from the PR author. -/
theorem processReviews_author_ne (pa : String) (rs : List Review) (e : ReviewEvent)
    (he : e ∈ processReviews pa rs) : e.author ≠ pa := by
  induction rs with
  | nil => simp [processReviews] at he
  | cons r rest ih =>
    obtain ⟨oa, os⟩ := r
    cases oa with
    | none => exact ih (by simpa [processReviews] using he)
    | some ra =>
      by_cases hpa : pa = ra
      · exact ih (by simpa [processReviews, hpa] using he)
      · cases os with
        | none => exact ih (by simpa [processReviews, hpa] using he)
        | some t =>
          simp only [processReviews, if_neg hpa] at he
          rcases List.mem_cons.mp he with rfl | hmem
          · simpa using fun hc => hpa hc.symm
          · exact ih hmem

/-- Every emitted event comes from a review of the list with that author
and that submission instant. -/
theorem processReviews_sound (pa : String) (rs : List Review) (e : ReviewEvent)
    (he : e ∈ processReviews pa rs) :
    ∃ r ∈ rs, r.author = some e.author ∧ r.submittedAt = some e.reviewDate := by
  induction rs with
  | nil => simp [processReviews] at he
  | cons r rest ih =>
    obtain ⟨oa, os⟩ := r
    cases oa with
    | none =>
      obtain ⟨r0, hr0, hprop⟩ := ih (by simpa [processReviews] using he)
      exact ⟨r0, List.mem_cons_of_mem _ hr0, hprop⟩
    | some ra =>
      by_cases hpa : pa = ra
      · obtain ⟨r0, hr0, hprop⟩ := ih (by simpa [processReviews, hpa] using he)
        exact ⟨r0, List.mem_cons_of_mem _ hr0, hprop⟩
      · cases os with
        | none =>
          obtain ⟨r0, hr0, hprop⟩ := ih (by simpa [processReviews, hpa] using he)
          exact ⟨r0, List.mem_cons_of_mem _ hr0, hprop⟩
        | some t =>
          simp only [processReviews, if_neg hpa] at he
          rcases List.mem_cons.mp he with rfl | hmem
          · exact ⟨⟨some ra, some t⟩, List.mem_cons_self _ _, rfl, rfl⟩
          · obtain ⟨r0, hr0, hprop⟩ := ih hmem
            exact ⟨r0, List.mem_cons_of_mem _ hr0, hprop⟩

/-- Every qualifying review of the list has its event emitted. -/
theorem processReviews_complete (pa : String) (rs : List Review) (r : Review)
    (a : String) (t : Int) (hr : r ∈ rs) (ha : r.author = some a) (hne : pa ≠ a)
    (ht : r.submittedAt = some t) : ReviewEvent.mk a t ∈ processReviews pa rs := by
  induction rs with
  | nil => simp at hr
  | cons r0 rest ih =>
    rcases List.mem_cons.mp hr with rfl | hmem
    · obtain ⟨oa, os⟩ := r
      cases ha
      cases ht
      simp only [processReviews, if_neg hne]
      exact List.mem_cons_self _ _
    · obtain ⟨oa, os⟩ := r0
      cases oa with
      | none => simpa [processReviews] using ih hmem
      | some ra =>
        by_cases hpa : pa = ra
        · simpa [processReviews, hpa] using ih hmem
        · cases os with
          | none => simpa [processReviews, hpa] using ih hmem
          | some t0 =>
            simp only [processReviews, if_neg hpa]
            exact List.mem_cons_of_mem _ (ih hmem)

/-- Provenance through the page scan: every event of a scanned page comes
from one of its PR nodes' embedded review pages. -/
theorem processPRs_mem (nodes : List PRNode) (e : ReviewEvent)
    (he : e ∈ (processPRs nodes).1) :
    ∃ node ∈ nodes, e ∈ processReviews (prAuthorLogin node.author) node.reviews.nodes := by
  induction nodes with
  | nil => simp [processPRs] at he
  | cons pr rest ih =>
    by_cases h : pr.reviews.hasNextPage
    · simp only [processPRs, if_pos h] at he
      exact ⟨pr, List.mem_cons_self _ _, he⟩
    · simp only [processPRs, if_neg h, List.mem_append] at he
      rcases he with he | he
      · exact ⟨pr, List.mem_cons_self _ _, he⟩
      · obtain ⟨node, hn, hmem⟩ := ih he
        exact ⟨node, List.mem_cons_of_mem _ hn, hmem⟩

/-- Every node of a fetched page stands for a pull request of the
repository, with the node's review page drawn from that PR's review list. -/
theorem fetchPRPage_node (repo : List PullRequest) (outer inner : Option Nat)
    (node : PRNode) (hn : node ∈ (fetchPRPage repo outer inner).nodes) :
    ∃ pr ∈ repo, node.author = pr.author ∧
      ∀ r ∈ node.reviews.nodes, r ∈ pr.reviews := by
  simp only [fetchPRPage, List.mem_map] at hn
  obtain ⟨pr, hpr, rfl⟩ := hn
  refine ⟨pr, ?_, rfl, ?_⟩
  · exact List.mem_of_mem_drop (List.mem_of_mem_take hpr)
  · intro r hr
    simp only [fetchReviews] at hr
    exact List.mem_of_mem_drop (List.mem_of_mem_take hr)

/-- An event of one emitted PR scan, traced to its pull request: the
reviewer differs from that PR's resolved author and the event restates a
review of that PR. -/
def eventFromRepo (repo : List PullRequest) (e : ReviewEvent) : Prop :=
  ∃ pr ∈ repo, e.author ≠ prAuthorLogin pr.author ∧
    ∃ r ∈ pr.reviews, r.author = some e.author ∧ r.submittedAt = some e.reviewDate

/-- Provenance through the inner loop: events are carried over from the
accumulator or traced to a pull request of the repository. -/
theorem innerLoop_mem (repo : List PullRequest) (outer : Option Nat) :
    ∀ (fuel : Nat) (inner : Option Nat) (acc res : List ReviewEvent) (pg : PRPage),
      innerLoop repo outer fuel inner acc = some (res, pg) →
      ∀ e ∈ res, e ∈ acc ∨ eventFromRepo repo e := by
  intro fuel
  induction fuel with
  | zero => intro inner acc res pg h; exact absurd h (by simp [innerLoop])
  | succ n ih =>
    intro inner acc res pg h e he
    simp only [innerLoop] at h
    have key : ∀ e0 : ReviewEvent,
        e0 ∈ (processPRs (fetchPRPage repo outer inner).nodes).1 →
        eventFromRepo repo e0 := by
      intro e0 he0
      obtain ⟨node, hn, hmem⟩ := processPRs_mem _ _ he0
      obtain ⟨pr, hpr, hauth, hsub⟩ := fetchPRPage_node repo outer inner node hn
      refine ⟨pr, hpr, ?_, ?_⟩
      · rw [← hauth]
        exact processReviews_author_ne _ _ _ hmem
      · obtain ⟨r, hr, hprop⟩ := processReviews_sound _ _ _ hmem
        exact ⟨r, hsub r hr, hprop⟩
    cases hp : (processPRs (fetchPRPage repo outer inner).nodes).2 with
    | none =>
      rw [hp] at h
      have h1 : acc ++ (processPRs (fetchPRPage repo outer inner).nodes).1 = res :=
        congrArg Prod.fst (Option.some.inj h)
      rw [← h1] at he
      rcases List.mem_append.mp he with he | he
      · exact Or.inl he
      · exact Or.inr (key e he)
    | some c =>
      rw [hp] at h
      rcases ih (some c) _ res pg h e he with hacc | hprov
      · rcases List.mem_append.mp hacc with he1 | he1
        · exact Or.inl he1
        · exact Or.inr (key e he1)
      · exact Or.inr hprov

/-- Provenance through the outer loop. -/
theorem outerLoop_mem (repo : List PullRequest) :
    ∀ (fuel : Nat) (outer : Option Nat) (acc out : List ReviewEvent),
      outerLoop repo fuel outer acc = some out →
      ∀ e ∈ out, e ∈ acc ∨ eventFromRepo repo e := by
  intro fuel
  induction fuel with
  | zero => intro outer acc out h; exact absurd h (by simp [outerLoop])
  | succ n ih =>
    intro outer acc out h e he
    simp only [outerLoop] at h
    cases hi : innerLoop repo outer n none acc with
    | none => rw [hi] at h; exact absurd h (by simp)
    | some p =>
      obtain ⟨acc2, page⟩ := p
      simp only [hi] at h
      by_cases hnext : page.hasNextPage
      · rw [if_pos hnext] at h
        rcases ih _ _ _ h e he with hacc | hprov
        · exact innerLoop_mem repo outer n none acc acc2 page hi e hacc
        · exact Or.inr hprov
      · rw [if_neg hnext] at h
        rw [← Option.some.inj h] at he
        exact innerLoop_mem repo outer n none acc acc2 page hi e he

/-- Provenance of a complete walker run: every emitted event is traced to a
pull request of the repository, with a reviewer different from that PR's
resolved author. -/
theorem get_reviews_mem (fuel : Nat) (repo : List PullRequest)
    (out : List ReviewEvent) (h : get_reviews fuel repo = some out)
    (e : ReviewEvent) (he : e ∈ out) : eventFromRepo repo e := by
  rcases outerLoop_mem repo fuel none [] out h e he with hacc | hprov
  · simp at hacc
  · exact hprov

/-- C4: for any input containing a review whose author login equals the
pull request author's login, no ReviewEvent with that author for that
review is present in the Review History Walker's output: the per-PR scan
never emits an event whose author is the PR's resolved author, and every
event of a complete walker run is traced to a pull request whose resolved
author differs from the event's reviewer. -/
theorem self_review_exclusion :
    (∀ (pa : String) (rs : List Review) (e : ReviewEvent),
       e ∈ processReviews pa rs → e.author ≠ pa) ∧
    (∀ (fuel : Nat) (repo : List PullRequest) (out : List ReviewEvent),
       get_reviews fuel repo = some out → ∀ e ∈ out, eventFromRepo repo e) :=
  ⟨processReviews_author_ne, fun fuel repo out h e he => get_reviews_mem fuel repo out h e he⟩

/-- Concrete run of the self-review exclusion: a PR authored by `alice`
with a self-review and one review by `bob` only ever emits `bob`. -/
theorem self_review_exclusion_witness :
    (ReviewEvent.mk "bob" 2).author ≠ "alice" :=
  self_review_exclusion.1 "alice" [⟨some "alice", some 1⟩, ⟨some "bob", some 2⟩]
    ⟨"bob", 2⟩ (by decide)

/-- C3: null-safety of the Review History Walker.  Under a null PR author
(resolved to the empty string) every emitted event names a non-empty
reviewer and restates an actual review with non-null author and non-null
submission instant; a review with a non-empty author different from the
empty string and a submission instant is still counted; a review with a
null author is dropped; a review with a null `submittedAt` is dropped. -/
theorem review_walker_null_safety :
    (∀ (rs : List Review) (e : ReviewEvent),
       e ∈ processReviews (prAuthorLogin none) rs →
       e.author ≠ "" ∧ ∃ r ∈ rs, r.author = some e.author ∧ r.submittedAt = some e.reviewDate) ∧
    (∀ (rs : List Review) (r : Review) (a : String) (t : Int),
       r ∈ rs → r.author = some a → a ≠ "" → r.submittedAt = some t →
       ReviewEvent.mk a t ∈ processReviews (prAuthorLogin none) rs) ∧
    (∀ (pa : String) (s : Option Int) (rs : List Review),
       processReviews pa (⟨none, s⟩ :: rs) = processReviews pa rs) ∧
    (∀ (pa a : String) (rs : List Review),
       processReviews pa (⟨some a, none⟩ :: rs) = processReviews pa rs) := by
  refine ⟨?_, ?_, ?_, ?_⟩
  · intro rs e he
    exact ⟨processReviews_author_ne _ rs e he, processReviews_sound _ rs e he⟩
  · intro rs r a t hr ha hne ht
    exact processReviews_complete _ rs r a t hr ha (fun hc => hne hc.symm) ht
  · intro pa s rs
    rfl
  · intro pa a rs
    by_cases hpa : pa = a
    · simp [processReviews, hpa]
    · simp [processReviews, hpa]

/-- Concrete run of the null-safety theorem: under a deleted PR author the
single review by `carol` is still counted and is well formed. -/
theorem review_walker_null_safety_witness :
    (ReviewEvent.mk "carol" 7).author ≠ "" ∧
      ∃ r ∈ [Review.mk (some "carol") (some 7)],
        r.author = some (ReviewEvent.mk "carol" 7).author ∧
          r.submittedAt = some (ReviewEvent.mk "carol" 7).reviewDate :=
  review_walker_null_safety.1 [⟨some "carol", some 7⟩] ⟨"carol", 7⟩ (by decide)

/-! ## Completeness of the double-cursor walk on a single pull request -/

/-- Unfolding of a review-connection fetch at an explicit inner cursor. -/
theorem fetchReviews_some (rs : List Review) (c : Nat) :
    fetchReviews rs (some c) =
      { nodes := (rs.drop c).take pageSize
        hasNextPage := decide (c + ((rs.drop c).take pageSize).length < rs.length)
        endCursor := c + ((rs.drop c).take pageSize).length } := rfl

/-- A repository of one pull request always fetches the same one-node outer
page, whose outer page info never reports more pull requests. -/
theorem fetchPRPage_single (pr : PullRequest) (inner : Option Nat) :
    fetchPRPage [pr] none inner =
      { nodes := [⟨pr.author, fetchReviews pr.reviews inner⟩]
        hasNextPage := false
        endCursor := 1 } := by
  simp [fetchPRPage, cursorOffset, pageSize]

/-- The page scan of a one-node page. -/
theorem processPRs_singleton (a : Option String) (rp : ReviewPage) :
    processPRs [⟨a, rp⟩] =
      if rp.hasNextPage then (processReviews (prAuthorLogin a) rp.nodes, some rp.endCursor)
      else (processReviews (prAuthorLogin a) rp.nodes ++ [], none) := rfl

/-- One unfolding of the inner loop. -/
theorem innerLoop_succ (repo : List PullRequest) (outer : Option Nat) (n : Nat)
    (inner : Option Nat) (acc : List ReviewEvent) :
    innerLoop repo outer (n + 1) inner acc =
      match (processPRs (fetchPRPage repo outer inner).nodes).2 with
      | none => some (acc ++ (processPRs (fetchPRPage repo outer inner).nodes).1,
          fetchPRPage repo outer inner)
      | some c => innerLoop repo outer n (some c)
          (acc ++ (processPRs (fetchPRPage repo outer inner).nodes).1) := rfl

/-- One unfolding of the outer loop. -/
theorem outerLoop_succ (repo : List PullRequest) (n : Nat) (outer : Option Nat)
    (acc : List ReviewEvent) :
    outerLoop repo (n + 1) outer acc =
      match innerLoop repo outer n none acc with
      | none => none
      | some (acc2, page) =>
        if page.hasNextPage then outerLoop repo n (some page.endCursor) acc2
        else some acc2 := rfl

/-- An absent inner cursor behaves as the cursor at position zero. -/
theorem innerLoop_none_zero (repo : List PullRequest) (outer : Option Nat)
    (fuel : Nat) (acc : List ReviewEvent) :
    innerLoop repo outer fuel none acc = innerLoop repo outer fuel (some 0) acc := by
  cases fuel with
  | zero => rfl
  | succ n => rfl

/-- On a one-PR repository the inner loop, given enough fuel, emits exactly
the scan of that PR's reviews from the inner cursor on, appended to the
accumulator, and the last fetched page reports no further pull requests. -/
theorem innerLoop_single (pr : PullRequest) :
    ∀ (fuel c : Nat) (acc : List ReviewEvent),
      1 ≤ fuel →
      pr.reviews.length ≤ c + fuel * pageSize →
      ∃ pg : PRPage,
        innerLoop [pr] none fuel (some c) acc =
          some (acc ++ processReviews (prAuthorLogin pr.author) (pr.reviews.drop c), pg) ∧
        pg.hasNextPage = false := by
  intro fuel
  induction fuel with
  | zero => intro c acc h1 h2; exact absurd h1 (by omega)
  | succ n ih =>
    intro c acc h1 h2
    have hps : pageSize = 100 := rfl
    have hchunklen : ((pr.reviews.drop c).take pageSize).length =
        min pageSize (pr.reviews.length - c) := by
      simp [List.length_take, List.length_drop]
    by_cases hmore : c + ((pr.reviews.drop c).take pageSize).length < pr.reviews.length
    · -- this PR's review page reports more reviews: advance the inner cursor
      have h100 : ((pr.reviews.drop c).take pageSize).length = pageSize := by
        rcases Nat.le_total pageSize (pr.reviews.length - c) with hle | hle
        · rw [hchunklen, Nat.min_eq_left hle]
        · exfalso
          rw [hchunklen, Nat.min_eq_right hle] at hmore
          omega
      have hfetchT : fetchReviews pr.reviews (some c) =
          { nodes := (pr.reviews.drop c).take pageSize
            hasNextPage := true
            endCursor := c + ((pr.reviews.drop c).take pageSize).length } := by
        rw [fetchReviews_some]
        congr 1
        exact decide_eq_true hmore
      have hstep : innerLoop [pr] none (n + 1) (some c) acc =
          innerLoop [pr] none n (some (c + ((pr.reviews.drop c).take pageSize).length))
            (acc ++ processReviews (prAuthorLogin pr.author)
              ((pr.reviews.drop c).take pageSize)) := by
        simp only [innerLoop_succ, fetchPRPage_single, processPRs_singleton, hfetchT, if_true]
      have hn1 : 1 ≤ n := by
        rw [h100, hps] at hmore
        rw [hps] at h2
        omega
      have hbound : pr.reviews.length ≤
          (c + ((pr.reviews.drop c).take pageSize).length) + n * pageSize := by
        rw [h100, hps] at hmore ⊢
        rw [hps] at h2
        omega
      obtain ⟨pg, hig, hfalse⟩ := ih (c + ((pr.reviews.drop c).take pageSize).length)
        (acc ++ processReviews (prAuthorLogin pr.author) ((pr.reviews.drop c).take pageSize))
        hn1 hbound
      have hsplit : processReviews (prAuthorLogin pr.author) (pr.reviews.drop c) =
          processReviews (prAuthorLogin pr.author) ((pr.reviews.drop c).take pageSize) ++
            processReviews (prAuthorLogin pr.author)
              (pr.reviews.drop (c + ((pr.reviews.drop c).take pageSize).length)) := by
        rw [← processReviews_append]
        congr 1
        rw [h100]
        exact (List.drop_take_append_drop pr.reviews c pageSize).symm
      refine ⟨pg, ?_, hfalse⟩
      rw [hstep, hig, hsplit, List.append_assoc]
    · -- last review chunk of this PR: the scan drains the page
      have hch : (pr.reviews.drop c).take pageSize = pr.reviews.drop c := by
        apply List.take_of_length_le
        rw [List.length_drop]
        rcases Nat.le_total pageSize (pr.reviews.length - c) with hle | hle
        · rw [hchunklen, Nat.min_eq_left hle] at hmore
          omega
        · exact hle
      have hfetchF : fetchReviews pr.reviews (some c) =
          { nodes := (pr.reviews.drop c).take pageSize
            hasNextPage := false
            endCursor := c + ((pr.reviews.drop c).take pageSize).length } := by
        rw [fetchReviews_some]
        congr 1
        exact decide_eq_false hmore
      have hstep : innerLoop [pr] none (n + 1) (some c) acc =
          some (acc ++ processReviews (prAuthorLogin pr.author) (pr.reviews.drop c),
            { nodes := [⟨pr.author, fetchReviews pr.reviews (some c)⟩]
              hasNextPage := false
              endCursor := 1 }) := by
        simp [innerLoop_succ, fetchPRPage_single, processPRs_singleton, hfetchF, hch]
      exact ⟨_, hstep, rfl⟩

/-- A complete walker run on a one-PR repository emits exactly the scan of
that PR's whole review list. -/
theorem get_reviews_single (pr : PullRequest) (fuel : Nat) (h1 : 2 ≤ fuel)
    (h2 : pr.reviews.length ≤ (fuel - 1) * pageSize) :
    get_reviews fuel [pr] = some (processReviews (prAuthorLogin pr.author) pr.reviews) := by
  obtain ⟨n, rfl⟩ : ∃ n, fuel = n + 1 := ⟨fuel - 1, by omega⟩
  obtain ⟨pg, hi, hfalse⟩ := innerLoop_single pr n 0 [] (by omega) (by simpa using h2)
  rw [get_reviews, outerLoop_succ, innerLoop_none_zero, hi]
  simp [hfalse]

/-- C1: for a repository containing a single pull request with 250 reviews
and a review page size of 100, the Review History Walker emits exactly the
sequential scan of all 250 reviews — each review contributing exactly its
own event, in order, so nothing is duplicated or omitted — and the number
of emitted events is exactly the number of reviews minus the self-reviews
and the null-author/null-submittedAt reviews. -/
theorem double_cursor_completeness (pr : PullRequest) (fuel : Nat)
    (h250 : pr.reviews.length = 250) (hfuel : 4 ≤ fuel) :
    get_reviews fuel [pr] = some (processReviews (prAuthorLogin pr.author) pr.reviews) ∧
    (processReviews (prAuthorLogin pr.author) pr.reviews).length =
      pr.reviews.countP (qualifies (prAuthorLogin pr.author)) := by
  refine ⟨get_reviews_single pr fuel (by omega) ?_, processReviews_length _ _⟩
  have hps : pageSize = 100 := rfl
  rw [hps, h250]
  omega

/-- A concrete pull request with 250 reviews, all by `bob` on a PR by
`alice`, with distinct submission instants. -/
def bigPR : PullRequest :=
  ⟨some "alice", (List.range 250).map fun i => ⟨some "bob", some (i : Int)⟩⟩

set_option maxRecDepth 4000 in
/-- Concrete run of the double-cursor completeness theorem on `bigPR`:
three inner-cursor fetches fit in fuel 4. -/
theorem double_cursor_completeness_witness :
    get_reviews 4 [bigPR] = some (processReviews (prAuthorLogin bigPR.author) bigPR.reviews) ∧
    (processReviews (prAuthorLogin bigPR.author) bigPR.reviews).length =
      bigPR.reviews.countP (qualifies (prAuthorLogin bigPR.author)) :=
  double_cursor_completeness bigPR 4 (by decide) (by omega)

/-- C2: when a PR's embedded review page reports more reviews, the walker
stops scanning the remaining PRs of the current outer page and records that
PR's end-of-page token (first conjunct); it re-issues a request for the
same outer page — outer cursor unchanged — with the inner cursor set to
that token (second conjunct); a PR whose review backlog is already
exhausted below the current inner cursor contributes no nodes and reports
no next page on the re-issued request, so already-processed PRs of the page
are not re-emitted (third conjunct); and events already accumulated are
never lost by further inner-loop fetches (fourth conjunct). -/
theorem inner_cursor_resumption :
    (∀ (pr : PRNode) (rest : List PRNode), pr.reviews.hasNextPage = true →
       processPRs (pr :: rest) =
         (processReviews (prAuthorLogin pr.author) pr.reviews.nodes,
           some pr.reviews.endCursor)) ∧
    (∀ (repo : List PullRequest) (outer : Option Nat) (fuel : Nat) (inner : Option Nat)
       (acc evs : List ReviewEvent) (c : Nat),
       processPRs (fetchPRPage repo outer inner).nodes = (evs, some c) →
       innerLoop repo outer (fuel + 1) inner acc =
         innerLoop repo outer fuel (some c) (acc ++ evs)) ∧
    (∀ (rs : List Review) (c : Nat), rs.length ≤ c →
       fetchReviews rs (some c) = { nodes := [], hasNextPage := false, endCursor := c }) ∧
    (∀ (repo : List PullRequest) (outer : Option Nat) (fuel : Nat) (inner : Option Nat)
       (acc res : List ReviewEvent) (pg : PRPage),
       innerLoop repo outer fuel inner acc = some (res, pg) → ∃ t, res = acc ++ t) := by
  refine ⟨?_, ?_, ?_, ?_⟩
  · intro pr rest h
    simp only [processPRs, h, if_true]
  · intro repo outer fuel inner acc evs c h
    rw [innerLoop_succ, h]
  · intro rs c h
    have hd : rs.drop c = [] := List.drop_eq_nil_of_le h
    rw [fetchReviews_some, hd]
    simp only [List.take_nil, List.length_nil, Nat.add_zero]
    congr 1
    exact decide_eq_false (Nat.not_lt.mpr h)
  · intro repo outer fuel
    induction fuel with
    | zero => intro inner acc res pg h; exact absurd h (by simp [innerLoop])
    | succ n ih =>
      intro inner acc res pg h
      rw [innerLoop_succ] at h
      cases hp : (processPRs (fetchPRPage repo outer inner).nodes).2 with
      | none =>
        rw [hp] at h
        have h1 : acc ++ (processPRs (fetchPRPage repo outer inner).nodes).1 = res :=
          congrArg Prod.fst (Option.some.inj h)
        exact ⟨_, h1.symm⟩
      | some c2 =>
        rw [hp] at h
        obtain ⟨t, ht⟩ := ih (some c2)
          (acc ++ (processPRs (fetchPRPage repo outer inner).nodes).1) res pg h
        exact ⟨(processPRs (fetchPRPage repo outer inner).nodes).1 ++ t,
          by rw [ht, List.append_assoc]⟩

set_option maxRecDepth 4000 in
/-- Concrete runs of the resumption theorem: a page whose first PR reports
more reviews, a one-PR repository with 101 reviews triggering the
re-issued request, a drained review list at cursor 5, and a trivial inner
loop preserving its accumulator. -/
theorem inner_cursor_resumption_witness :
    processPRs [PRNode.mk (some "alice") ⟨[], true, 100⟩] =
      (processReviews (prAuthorLogin (some "alice")) [], some 100) ∧
    innerLoop [PullRequest.mk none (List.replicate 101 ⟨none, none⟩)] none 1 none [] =
      innerLoop [PullRequest.mk none (List.replicate 101 ⟨none, none⟩)] none 0
        (some 100) ([] ++ []) ∧
    fetchReviews [] (some 5) = { nodes := [], hasNextPage := false, endCursor := 5 } ∧
    ∃ t, ([] : List ReviewEvent) = [] ++ t :=
  ⟨inner_cursor_resumption.1 ⟨some "alice", ⟨[], true, 100⟩⟩ [] rfl,
   inner_cursor_resumption.2.1 [PullRequest.mk none (List.replicate 101 ⟨none, none⟩)]
     none 0 none [] [] 100 (by decide),
   inner_cursor_resumption.2.2.1 [] 5 (by decide),
   inner_cursor_resumption.2.2.2 [] none 1 none [] [] (fetchPRPage [] none none) (by decide)⟩

/-! ## Lemmas about the aggregator -/

/-- Two counter bumps commute. -/
theorem bump_comm (b : Int) (e1 e2 : Event) (c : AuthorCounts) :
    bump b e1 (bump b e2 c) = bump b e2 (bump b e1 c) := by
  obtain ⟨a1, a2, a3, a4⟩ := c
  cases e1 <;> cases e2 <;> simp only [bump] <;> split_ifs <;> rfl

/-- Applying two events in either order yields the same author table. -/
theorem applyEvent_comm (b : Int) (m : AuthorsMap) (e1 e2 : Event) :
    applyEvent b (applyEvent b m e1) e2 = applyEvent b (applyEvent b m e2) e1 := by
  funext x
  simp only [applyEvent]
  by_cases h2 : x = e2.author <;> by_cases h1 : x = e1.author
  · simp only [if_pos h2, if_pos h1, if_pos (h2.symm.trans h1), if_pos (h1.symm.trans h2),
      Option.getD_some]
    rw [← h1, ← h2]
    exact congrArg some (bump_comm b e2 e1 _)
  · simp only [if_pos h2, if_neg h1,
      if_neg (fun hc : e2.author = e1.author => h1 (h2.trans hc))]
  · simp only [if_pos h1, if_neg h2,
      if_neg (fun hc : e1.author = e2.author => h2 (h1.trans hc))]
  · simp only [if_neg h1, if_neg h2]

/-- C5: feeding any permutation of the event list to the Aggregator yields
an identical AuthorStats mapping — same authors present, same four counter
values for each. -/
theorem aggregate_commutative (b : Int) (es fs : List Event) (h : es.Perm fs) :
    aggregate b es = aggregate b fs := by
  unfold aggregate
  suffices H : ∀ m : AuthorsMap, es.foldl (applyEvent b) m = fs.foldl (applyEvent b) m from
    H _
  induction h with
  | nil => intro m; rfl
  | cons x p ih => intro m; simp only [List.foldl_cons]; exact ih _
  | swap x y l => intro m; simp only [List.foldl_cons]; rw [applyEvent_comm]
  | trans p1 p2 ih1 ih2 => intro m; exact (ih1 m).trans (ih2 m)

/-- Concrete run of the commutativity theorem: swapping a commit and a
review leaves the aggregated table unchanged. -/
theorem aggregate_commutative_witness :
    aggregate 0 [Event.commit "a" 1, Event.review "b" 2] =
      aggregate 0 [Event.review "b" 2, Event.commit "a" 1] :=
  aggregate_commutative 0 _ _
    (List.Perm.swap (Event.review "b" 2) (Event.commit "a" 1) [])

/-- The counter invariant: in-window counters never exceed totals and all
four counters are non-negative. -/
def countsInv (c : AuthorCounts) : Prop :=
  c.commits_in_last_year ≤ c.total_commits ∧ c.reviews_in_last_year ≤ c.total_reviews ∧
    0 ≤ c.total_commits ∧ 0 ≤ c.commits_in_last_year ∧
    0 ≤ c.total_reviews ∧ 0 ≤ c.reviews_in_last_year

/-- Bumping preserves the counter invariant. -/
theorem bump_inv (b : Int) (e : Event) (c : AuthorCounts) (h : countsInv c) :
    countsInv (bump b e c) := by
  obtain ⟨a1, a2, a3, a4⟩ := c
  obtain ⟨h1, h2, h3, h4, h5, h6⟩ := h
  cases e <;> simp only [bump, countsInv] at * <;> split_ifs <;>
    refine ⟨?_, ?_, ?_, ?_, ?_, ?_⟩ <;> omega

/-- Every record of the folded table satisfies the counter invariant,
provided every record of the starting table does. -/
theorem foldl_inv (b : Int) (es : List Event) :
    ∀ (m : AuthorsMap), (∀ a c, m a = some c → countsInv c) →
      ∀ a c, (es.foldl (applyEvent b) m) a = some c → countsInv c := by
  induction es with
  | nil => intro m hm a c h; exact hm a c h
  | cons e rest ih =>
    intro m hm a c h
    refine ih (applyEvent b m e) ?_ a c h
    intro x d hx
    simp only [applyEvent] at hx
    by_cases hxe : x = e.author
    · rw [if_pos hxe] at hx
      cases Option.some.inj hx
      apply bump_inv
      cases hme : m e.author with
      | none => simp only [hme, Option.getD_none]; exact ⟨le_refl _, le_refl _, le_refl _,
          le_refl _, le_refl _, le_refl _⟩
      | some c0 => simp only [hme, Option.getD_some]; exact hm _ _ hme
    · rw [if_neg hxe] at hx
      exact hm _ _ hx

/-- C6: after every event applied by the Aggregator, every AuthorStats
record satisfies `commitsInWindow ≤ totalCommits` and
`reviewsInWindow ≤ totalReviews`, and all four counters are non-negative
(the statement quantifies over every event list, hence over every prefix
of a run). -/
theorem window_monotonicity (b : Int) (es : List Event) (a : String) (c : AuthorCounts)
    (h : aggregate b es a = some c) :
    c.commits_in_last_year ≤ c.total_commits ∧ c.reviews_in_last_year ≤ c.total_reviews ∧
      0 ≤ c.total_commits ∧ 0 ≤ c.commits_in_last_year ∧
      0 ≤ c.total_reviews ∧ 0 ≤ c.reviews_in_last_year :=
  foldl_inv b es (fun _ => none) (fun _ _ hx => absurd hx (by simp)) a c h

/-- Concrete run of the window monotonicity theorem after one in-window
commit by `a`. -/
theorem window_monotonicity_witness :
    (AuthorCounts.mk 1 1 0 0).commits_in_last_year ≤ (AuthorCounts.mk 1 1 0 0).total_commits ∧
      (AuthorCounts.mk 1 1 0 0).reviews_in_last_year ≤ (AuthorCounts.mk 1 1 0 0).total_reviews ∧
      0 ≤ (AuthorCounts.mk 1 1 0 0).total_commits ∧
      0 ≤ (AuthorCounts.mk 1 1 0 0).commits_in_last_year ∧
      0 ≤ (AuthorCounts.mk 1 1 0 0).total_reviews ∧
      0 ≤ (AuthorCounts.mk 1 1 0 0).reviews_in_last_year :=
  window_monotonicity 0 [Event.commit "a" 1] "a" ⟨1, 1, 0, 0⟩ (by decide)

/-- C10: applying a single event changes only the record keyed by that
event's author (first conjunct), rewrites that record by the bump of its
previous value (second conjunct), and the bump of a commit event leaves
both review counters unchanged while the bump of a review event leaves
both commit counters unchanged (third and fourth conjuncts). -/
theorem aggregator_frame_effect (b : Int) (m : AuthorsMap) (e : Event) :
    (∀ x, x ≠ e.author → applyEvent b m e x = m x) ∧
    (applyEvent b m e e.author = some (bump b e ((m e.author).getD AuthorCounts.start))) ∧
    (∀ a d, e = Event.commit a d →
       (bump b e ((m e.author).getD AuthorCounts.start)).total_reviews =
         ((m e.author).getD AuthorCounts.start).total_reviews ∧
       (bump b e ((m e.author).getD AuthorCounts.start)).reviews_in_last_year =
         ((m e.author).getD AuthorCounts.start).reviews_in_last_year) ∧
    (∀ a d, e = Event.review a d →
       (bump b e ((m e.author).getD AuthorCounts.start)).total_commits =
         ((m e.author).getD AuthorCounts.start).total_commits ∧
       (bump b e ((m e.author).getD AuthorCounts.start)).commits_in_last_year =
         ((m e.author).getD AuthorCounts.start).commits_in_last_year) := by
  refine ⟨?_, ?_, ?_, ?_⟩
  · intro x hx
    simp only [applyEvent, if_neg hx]
  · simp [applyEvent]
  · rintro a d rfl
    exact ⟨rfl, rfl⟩
  · rintro a d rfl
    exact ⟨rfl, rfl⟩

/-- Concrete run of the frame-effect theorem: a commit by `a` leaves the
record of `b` untouched and the review counters of `a` untouched. -/
theorem aggregator_frame_effect_witness :
    applyEvent 0 (fun _ => none) (Event.commit "a" 5) "b" =
      (fun _ => (none : Option AuthorCounts)) "b" ∧
    (bump 0 (Event.commit "a" 5)
        (((fun _ => (none : Option AuthorCounts)) (Event.commit "a" 5).author).getD
          AuthorCounts.start)).total_reviews =
      (((fun _ => (none : Option AuthorCounts)) (Event.commit "a" 5).author).getD
        AuthorCounts.start).total_reviews :=
  ⟨(aggregator_frame_effect 0 (fun _ => none) (Event.commit "a" 5)).1 "b" (by decide),
   ((aggregator_frame_effect 0 (fun _ => none) (Event.commit "a" 5)).2.2.1 "a" 5 rfl).1⟩

/-! ## Lemmas about the Repository Lister -/

/-- Inserting a fresh key into the dictionary appends the pair. -/
theorem dictInsert_fresh (k v : String) (acc : List (String × String))
    (h : ∀ p ∈ acc, p.1 ≠ k) : dictInsert k v acc = acc ++ [(k, v)] := by
  induction acc with
  | nil => rfl
  | cons p rest ih =>
    have hp : p.1 ≠ k := h p (List.mem_cons_self _ _)
    simp only [dictInsert, if_neg hp, List.cons_append]
    exact congrArg _ (ih fun q hq => h q (List.mem_cons_of_mem _ hq))

/-- One listing node contributes through `addRepo` exactly its
`repoEntry`. -/
theorem addRepo_eq (acc : List (String × String)) (r : RepoNode) :
    addRepo acc r = match repoEntry r with
      | none => acc
      | some p => dictInsert p.1 p.2 acc := by
  simp only [addRepo, repoEntry]
  cases r.defaultBranchRef with
  | none => rfl
  | some b => by_cases h : r.isArchived <;> simp [h]

/-- The entry a node contributes, characterised. -/
theorem repoEntry_eq_some (r : RepoNode) (n b : String) :
    repoEntry r = some (n, b) ↔
      r.name = n ∧ r.defaultBranchRef = some b ∧ r.isArchived = false := by
  obtain ⟨nm, dbr, arch⟩ := r
  cases dbr with
  | none => simp [repoEntry]
  | some br =>
    cases arch with
    | true => simp [repoEntry]
    | false => simp [repoEntry, Prod.mk.injEq, eq_comm]

/-- Folding a listing with distinct names over `addRepo` appends the
qualifying entries in listing order. -/
theorem foldl_addRepo (listing : List RepoNode) :
    ∀ (acc : List (String × String)),
      (listing.map RepoNode.name).Nodup →
      (∀ p ∈ acc, p.1 ∉ listing.map RepoNode.name) →
      listing.foldl addRepo acc = acc ++ listing.filterMap repoEntry := by
  induction listing with
  | nil => intro acc _ _; simp
  | cons r rest ih =>
    intro acc hnd hdisj
    simp only [List.map_cons, List.nodup_cons] at hnd
    simp only [List.foldl_cons]
    have hdisjrest : ∀ p ∈ acc, p.1 ∉ rest.map RepoNode.name := by
      intro p hp
      have := hdisj p hp
      simp only [List.map_cons, List.mem_cons] at this
      exact fun hc => this (Or.inr hc)
    cases hre : repoEntry r with
    | none =>
      simp only [addRepo_eq, hre]
      rw [ih acc hnd.2 hdisjrest]
      simp [List.filterMap_cons, hre]
    | some p =>
      obtain ⟨n0, b0⟩ := p
      have hprop := (repoEntry_eq_some r n0 b0).mp hre
      simp only [addRepo_eq, hre]
      have hfresh : ∀ q ∈ acc, q.1 ≠ n0 := by
        intro q hq
        have hq2 := hdisj q hq
        simp only [List.map_cons, List.mem_cons] at hq2
        rw [← hprop.1]
        exact fun hc => hq2 (Or.inl hc)
      rw [dictInsert_fresh n0 b0 acc hfresh]
      rw [ih (acc ++ [(n0, b0)]) hnd.2 ?_]
      · simp [List.filterMap_cons, hre]
      · intro q hq
        rcases List.mem_append.mp hq with hq1 | hq1
        · exact hdisjrest q hq1
        · have hq2 : q = (n0, b0) := by simpa using hq1
          rw [hq2, ← hprop.1]
          exact hnd.1

/-- The paginated listing walk, given enough fuel, folds the whole
listing. -/
theorem orgLoop_complete (listing : List RepoNode) :
    ∀ (fuel off : Nat) (acc : List (String × String)),
      1 ≤ fuel → listing.length ≤ off + fuel * pageSize →
      orgLoop listing fuel off acc = some ((listing.drop off).foldl addRepo acc) := by
  intro fuel
  induction fuel with
  | zero => intro off acc h1 _; exact absurd h1 (by omega)
  | succ n ih =>
    intro off acc h1 h2
    have hps : pageSize = 100 := rfl
    have hchunklen : ((listing.drop off).take pageSize).length =
        min pageSize (listing.length - off) := by
      simp [List.length_take, List.length_drop]
    simp only [orgLoop]
    by_cases hmore : off + ((listing.drop off).take pageSize).length < listing.length
    · rw [if_pos hmore]
      have hlen : ((listing.drop off).take pageSize).length = pageSize := by
        rcases Nat.le_total pageSize (listing.length - off) with hle | hle
        · rw [hchunklen, Nat.min_eq_left hle]
        · exfalso; rw [hchunklen, Nat.min_eq_right hle] at hmore; omega
      rw [ih (off + ((listing.drop off).take pageSize).length)
        ((listing.drop off).take pageSize |>.foldl addRepo acc)
        (by rw [hlen, hps] at hmore; rw [hps] at h2; omega)
        (by rw [hlen, hps] at hmore ⊢; rw [hps] at h2; omega)]
      congr 1
      rw [← List.foldl_append]
      congr 1
      rw [hlen]
      exact List.drop_take_append_drop listing off pageSize
    · rw [if_neg hmore]
      congr 1
      congr 1
      apply List.take_of_length_le
      rw [List.length_drop]
      rcases Nat.le_total pageSize (listing.length - off) with hle | hle
      · rw [hchunklen, Nat.min_eq_left hle] at hmore
        omega
      · exact hle

/-- C7: given an organization listing with distinct repository names, the
Repository Lister returns exactly the non-archived repositories that have
a default branch, in listing order, each mapped to its default branch
name; membership in the result is characterised exactly by those two
conditions. -/
theorem repo_lister_filtering (listing : List RepoNode) (fuel : Nat)
    (hnd : (listing.map RepoNode.name).Nodup)
    (h1 : 1 ≤ fuel) (h2 : listing.length ≤ fuel * pageSize) :
    get_org_repos_from_name fuel listing = some (listing.filterMap repoEntry) ∧
    (∀ n b : String, (n, b) ∈ listing.filterMap repoEntry ↔
       ∃ r ∈ listing, r.name = n ∧ r.defaultBranchRef = some b ∧ r.isArchived = false) := by
  constructor
  · rw [get_org_repos_from_name, orgLoop_complete listing fuel 0 [] h1 (by simpa using h2)]
    simp only [List.drop_zero]
    rw [foldl_addRepo listing [] hnd (by simp)]
    simp
  · intro n b
    rw [List.mem_filterMap]
    constructor
    · rintro ⟨r, hr, hre⟩
      exact ⟨r, hr, (repoEntry_eq_some r n b).mp hre⟩
    · rintro ⟨r, hr, hprop⟩
      exact ⟨r, hr, (repoEntry_eq_some r n b).mpr hprop⟩

/-- The synthetic listing of the specification: `A` archived, `B` without
a default branch, `C` normal. -/
def exListing : List RepoNode :=
  [⟨"A", some "main", true⟩, ⟨"B", none, false⟩, ⟨"C", some "main", false⟩]

/-- Concrete run of the filtering theorem: the listing `{A, B, C}` yields
exactly `{C}`. -/
theorem repo_lister_filtering_witness :
    get_org_repos_from_name 1 exListing = some [("C", "main")] :=
  ((repo_lister_filtering exListing 1 (by decide) (by decide) (by decide)).1).trans (by decide)

/-! ## Lemmas about the reporter sort -/

/-- Membership through a descending insertion. -/
theorem mem_insertDesc (x z : String × AuthorCounts) (l : List (String × AuthorCounts)) :
    z ∈ insertDesc x l ↔ z = x ∨ z ∈ l := by
  induction l with
  | nil => simp [insertDesc]
  | cons y ys ih =>
    by_cases h : sortKey x < sortKey y
    · simp only [insertDesc, if_pos h, List.mem_cons, ih]
      tauto
    · simp only [insertDesc, if_neg h, List.mem_cons]

/-- Descending insertion preserves the descending pairwise order. -/
theorem pairwise_insertDesc (x : String × AuthorCounts) (l : List (String × AuthorCounts))
    (hl : l.Pairwise fun a b => sortKey b ≤ sortKey a) :
    (insertDesc x l).Pairwise fun a b => sortKey b ≤ sortKey a := by
  induction l with
  | nil => simp [insertDesc]
  | cons y ys ih =>
    rw [List.pairwise_cons] at hl
    by_cases h : sortKey x < sortKey y
    · simp only [insertDesc, if_pos h, List.pairwise_cons]
      refine ⟨?_, ih hl.2⟩
      intro z hz
      rcases (mem_insertDesc x z ys).mp hz with rfl | hz2
      · exact le_of_lt h
      · exact hl.1 z hz2
    · simp only [insertDesc, if_neg h, List.pairwise_cons]
      refine ⟨?_, ?_, hl.2⟩
      · intro z hz
        rcases List.mem_cons.mp hz with rfl | hz2
        · exact le_of_not_lt h
        · exact le_trans (hl.1 z hz2) (le_of_not_lt h)
      · exact hl.1

/-- Filtering by one key value through a descending insertion: an element
with that key lands in front of every later element with the same key, and
an element with a different key leaves the filtered subsequence alone. -/
theorem filter_insertDesc (x : String × AuthorCounts) (l : List (String × AuthorCounts))
    (k : Int) :
    (insertDesc x l).filter (fun y => sortKey y == k) =
      if sortKey x == k then x :: l.filter (fun y => sortKey y == k)
      else l.filter (fun y => sortKey y == k) := by
  induction l with
  | nil =>
    by_cases hk : sortKey x == k <;> simp [insertDesc, List.filter, hk]
  | cons y ys ih =>
    by_cases h : sortKey x < sortKey y
    · simp only [insertDesc, if_pos h, List.filter_cons]
      by_cases hy : sortKey y == k
      · have hx : ¬sortKey x == k := by
          simp only [beq_iff_eq] at hy ⊢
          omega
        simp only [hy, if_true, ih, hx, if_false]
        simp
      · simp only [hy, if_false, ih]
        by_cases hk : sortKey x == k <;> simp [hk, hy]
    · simp only [insertDesc, if_neg h, List.filter_cons]

/-- The sorted sequence is pairwise descending in the sort key. -/
theorem sortAuthorsDesc_pairwise (l : List (String × AuthorCounts)) :
    (sortAuthorsDesc l).Pairwise fun a b => sortKey b ≤ sortKey a := by
  induction l with
  | nil => simp [sortAuthorsDesc]
  | cons x xs ih => exact pairwise_insertDesc x _ ih

/-- Sort stability: for every key value, the subsequence of entries with
that key is exactly the input subsequence, in input order. -/
theorem sortAuthorsDesc_filter (l : List (String × AuthorCounts)) (k : Int) :
    (sortAuthorsDesc l).filter (fun y => sortKey y == k) =
      l.filter (fun y => sortKey y == k) := by
  induction l with
  | nil => rfl
  | cons x xs ih =>
    have hx : sortAuthorsDesc (x :: xs) = insertDesc x (sortAuthorsDesc xs) := rfl
    rw [hx, filter_insertDesc, List.filter_cons]
    by_cases hk : sortKey x == k <;> simp [hk, ih]

/-- C8: both renderers order the author table descending by
`commitsInWindow + reviewsInWindow`; authors with an equal sum keep their
relative input order (the filtered subsequence at each key value equals
the input subsequence); and the two renderings use the identical order. -/
theorem reporter_sort_stable (l : List (String × AuthorCounts)) :
    (print_authors_order l).Pairwise (fun a b => sortKey b ≤ sortKey a) ∧
    (∀ k : Int, (print_authors_order l).filter (fun y => sortKey y == k) =
       l.filter (fun y => sortKey y == k)) ∧
    print_csv_order l = print_authors_order l :=
  ⟨sortAuthorsDesc_pairwise l, fun k => sortAuthorsDesc_filter l k, rfl⟩

/-- Concrete run of the sort theorem: two authors with equal key keep
their input order in both renderings. -/
theorem reporter_sort_stable_witness :
    (print_authors_order [("a", ⟨0, 1, 0, 1⟩), ("b", ⟨0, 2, 0, 0⟩)]).filter
        (fun y => sortKey y == 2) =
      [("a", ⟨0, 1, 0, 1⟩), ("b", ⟨0, 2, 0, 0⟩)].filter (fun y => sortKey y == 2) ∧
    print_csv_order [("a", ⟨0, 1, 0, 1⟩), ("b", ⟨0, 2, 0, 0⟩)] =
      print_authors_order [("a", ⟨0, 1, 0, 1⟩), ("b", ⟨0, 2, 0, 0⟩)] :=
  ⟨(reporter_sort_stable [("a", ⟨0, 1, 0, 1⟩), ("b", ⟨0, 2, 0, 0⟩)]).2.1 2,
   (reporter_sort_stable [("a", ⟨0, 1, 0, 1⟩), ("b", ⟨0, 2, 0, 0⟩)]).2.2⟩

/-! ## Error handling of the page accesses -/

/-- Counterexample to the claim that every walker raises a
RemoteQueryError/RepositoryNotFoundError-class error on a null required
object: a status-200 review page response whose `repository` is null makes
the Review History Walker abort with an unhandled TypeError from the
subscript chain, which is not one of the script's own raised errors. -/
theorem walker_error_class_cex :
    reviewPageAccess ⟨200, some ⟨none⟩⟩ = Except.error PyError.typeError ∧
    PyError.isRaised PyError.typeError = false :=
  ⟨rfl, rfl⟩

/-- C9 (amended): every page response with a non-success status, a missing
`data` field, or a null required object makes the walker abort with an
error — never a partial result.  A non-success status raises the script's
own error in all three walkers; the Commit History Walker also raises its
own error for a missing `data` field and a null `repository` or `ref`; the
Review History Walker and the Repository Lister instead abort with an
unhandled KeyError/TypeError for a missing `data` field or a null
`repository`/`organization`.  The first failing page aborts the whole
commit walk with that error. -/
theorem walker_error_abort :
    (∀ r : ReviewResponse, r.status ≠ 200 →
       reviewPageAccess r = .error (.raised "GitHub GraphQL query failed")) ∧
    (∀ r : ReviewResponse, r.status = 200 → r.respData = none →
       reviewPageAccess r = .error .keyError) ∧
    (∀ (r : ReviewResponse) (d : ReviewsData), r.status = 200 → r.respData = some d →
       d.repository = none → reviewPageAccess r = .error .typeError) ∧
    (∀ r : OrgResponse, r.status ≠ 200 →
       orgPageAccess r = .error (.raised "GitHub GraphQL query failed")) ∧
    (∀ r : OrgResponse, r.status = 200 → r.respData = none →
       orgPageAccess r = .error .keyError) ∧
    (∀ (r : OrgResponse) (d : OrgData), r.status = 200 → r.respData = some d →
       d.organization = none → orgPageAccess r = .error .typeError) ∧
    (∀ r : CommitResponse,
       (r.status ≠ 200 ∨ r.respData = none ∨
         (∃ d, r.respData = some d ∧ d.repository = none) ∨
         (∃ d repo, r.respData = some d ∧ d.repository = some repo ∧ repo.ref = none)) →
       ∃ msg, commitPageAccess r = .error (.raised msg)) ∧
    (∀ (r : CommitResponse) (rest : List CommitResponse) (acc : List CommitNode)
       (e : PyError), commitPageAccess r = .error e →
       commitsRun (r :: rest) acc = some (.error e)) := by
  refine ⟨?_, ?_, ?_, ?_, ?_, ?_, ?_, ?_⟩
  · intro r h
    simp only [reviewPageAccess, if_pos h]
  · intro r h1 h2
    simp only [reviewPageAccess, if_neg (fun hc : r.status ≠ 200 => hc h1), h2]
  · intro r d h1 h2 h3
    simp only [reviewPageAccess, if_neg (fun hc : r.status ≠ 200 => hc h1), h2, h3]
  · intro r h
    simp only [orgPageAccess, if_pos h]
  · intro r h1 h2
    simp only [orgPageAccess, if_neg (fun hc : r.status ≠ 200 => hc h1), h2]
  · intro r d h1 h2 h3
    simp only [orgPageAccess, if_neg (fun hc : r.status ≠ 200 => hc h1), h2, h3]
  · intro r h
    rcases h with hs | hd | ⟨d, hd, hrep⟩ | ⟨d, repo, hd, hrep, href⟩
    · exact ⟨"GitHub GraphQL query failed", by simp only [commitPageAccess, if_pos hs]⟩
    · by_cases hs : r.status ≠ 200
      · exact ⟨"GitHub GraphQL query failed", by simp only [commitPageAccess, if_pos hs]⟩
      · exact ⟨"GraphQL query returned unexpected data",
          by simp only [commitPageAccess, if_neg hs, hd]⟩
    · by_cases hs : r.status ≠ 200
      · exact ⟨"GitHub GraphQL query failed", by simp only [commitPageAccess, if_pos hs]⟩
      · exact ⟨"Repo does not exist", by simp only [commitPageAccess, if_neg hs, hd, hrep]⟩
    · by_cases hs : r.status ≠ 200
      · exact ⟨"GitHub GraphQL query failed", by simp only [commitPageAccess, if_pos hs]⟩
      · exact ⟨"Repo does not exist",
          by simp only [commitPageAccess, if_neg hs, hd, hrep, href]⟩
  · intro r rest acc e h
    simp only [commitsRun, h]

/-- Concrete runs of the abort theorem: a 500 on the review walker, a
status-200 listing response with no `data` key, a commit response with a
null `repository`, and a 404 aborting the whole commit walk. -/
theorem walker_error_abort_witness :
    reviewPageAccess ⟨500, none⟩ = .error (.raised "GitHub GraphQL query failed") ∧
    orgPageAccess ⟨200, none⟩ = .error .keyError ∧
    (∃ msg, commitPageAccess ⟨200, some ⟨none⟩⟩ = .error (.raised msg)) ∧
    commitsRun [⟨404, none⟩] [] = some (.error (.raised "GitHub GraphQL query failed")) :=
  ⟨walker_error_abort.1 ⟨500, none⟩ (by decide),
   walker_error_abort.2.2.2.2.1 ⟨200, none⟩ rfl rfl,
   walker_error_abort.2.2.2.2.2.2.1 ⟨200, some ⟨none⟩⟩
     (Or.inr (Or.inr (Or.inl ⟨⟨none⟩, rfl, rfl⟩))),
   walker_error_abort.2.2.2.2.2.2.2 ⟨404, none⟩ [] [] _ rfl⟩
